import Mathlib

/-!
Verification of the `apeye` URL data model.

This development shallowly embeds the code of `apeye/url.py`,
`apeye/_url.py` and `apeye/requests_url.py`: the `URLPath` path model
(the relevant fragment of `pathlib.PurePosixPath` plus apeye's
overrides), the `urllib.parse.urlparse` splitting that `URL.__init__`
relies on, the `URL` value type with `from_parts`, `__str__`,
`__truediv__`, `__eq__`, `__hash__`, `parent`, and the
`RequestsURL` / `TrailingRequestsURL` subclasses with their session
handling.  Strings are modelled as `List Char`.
-/

namespace Apeye

/-- Characters allowed in a URL scheme by `urllib.parse`
(`scheme_chars`: ASCII letters, digits, `+`, `-`, `.`). -/
def isSchemeChar (c : Char) : Bool :=
  c.isAlpha || c.isDigit || c = '+' || c = '-' || c = '.'

/-- Characters that terminate the netloc in `urllib.parse._splitnetloc`
(`/`, `?`, `#`). -/
def isNetlocChar (c : Char) : Bool :=
  c ≠ '/' && c ≠ '?' && c ≠ '#'

/-- The `urllib.parse.urlsplit` scheme condition: `i = url.find(':')`
with `i > 0` (a colon is present and not first) and every character
before it is a scheme character. -/
def schemeLikeStart (url : List Char) : Prop :=
  (url.takeWhile (· ≠ ':')).length < url.length
    ∧ url.takeWhile (· ≠ ':') ≠ []
    ∧ (url.takeWhile (· ≠ ':')).all isSchemeChar

instance (url : List Char) : Decidable (schemeLikeStart url) := by
  unfold schemeLikeStart; infer_instance

/-- `urllib.parse.urlsplit` scheme detection: when `schemeLikeStart`
holds, split the scheme off (lower-cased). -/
def splitScheme (url : List Char) : List Char × List Char :=
  if schemeLikeStart url then
    ((url.takeWhile (· ≠ ':')).map Char.toLower,
      url.drop ((url.takeWhile (· ≠ ':')).length + 1))
  else
    ([], url)

/-- `urllib.parse._splitnetloc`: when the remainder begins with `//`,
the netloc is everything up to the next `/`, `?` or `#`. -/
def splitNetloc (url : List Char) : List Char × List Char :=
  if url.take 2 = ['/', '/'] then
    ((url.drop 2).takeWhile isNetlocChar, (url.drop 2).dropWhile isNetlocChar)
  else
    ([], url)

/-- `urllib.parse.urlsplit` fragment split: at the first `#`, if any. -/
def splitFragment (url : List Char) : List Char × Option (List Char) :=
  if '#' ∈ url then
    (url.takeWhile (· ≠ '#'), some ((url.dropWhile (· ≠ '#')).drop 1))
  else
    (url, none)

/-- `urllib.parse.urlsplit` query split: at the first `?`, if any. -/
def splitQuery (url : List Char) : List Char × List Char :=
  if '?' ∈ url then
    (url.takeWhile (· ≠ '?'), (url.dropWhile (· ≠ '?')).drop 1)
  else
    (url, [])

/-- `urllib.parse._splitparams`: strip a `;params` suffix from the last
path segment (after the last `/` when the path contains one). -/
def splitParams (p : List Char) : List Char :=
  if '/' ∈ p then
    (p.reverse.dropWhile (· ≠ '/')).reverse
      ++ ((p.reverse.takeWhile (· ≠ '/')).reverse.takeWhile (· ≠ ';'))
  else
    p.takeWhile (· ≠ ';')

/-- Result of `urllib.parse.urlparse`: the components `URL.__init__`
destructures (`scheme, netloc, parts, *_`), plus query and fragment. -/
structure ParseResult where
  scheme : List Char
  netloc : List Char
  path : List Char
  query : List Char
  fragment : Option (List Char)
deriving DecidableEq, Repr

/-- The schemes for which `urllib.parse.urlparse` splits `;params`
(`uses_params`; the empty scheme is among them). -/
def usesParams : List (List Char) :=
  ["".toList, "ftp".toList, "hdl".toList, "prospero".toList, "http".toList,
    "imap".toList, "https".toList, "shttp".toList, "rtsp".toList,
    "rtspu".toList, "sip".toList, "sips".toList, "mms".toList, "sftp".toList,
    "tel".toList]

/-- `urllib.parse.urlparse`: split scheme, then netloc, then fragment,
then query; parameters are split off the path only for the schemes in
`uses_params`. -/
def urlparse (url : List Char) : ParseResult :=
  ⟨(splitScheme url).1,
    (splitNetloc (splitScheme url).2).1,
    if (splitScheme url).1 ∈ usesParams then
      splitParams (splitQuery (splitFragment (splitNetloc (splitScheme url).2).2).1).1
    else
      (splitQuery (splitFragment (splitNetloc (splitScheme url).2).2).1).1,
    (splitQuery (splitFragment (splitNetloc (splitScheme url).2).2).1).2,
    (splitFragment (splitNetloc (splitScheme url).2).2).2⟩

/-- The `urllib.parse.urlsplit` bracket check, run right after the
netloc split: a `[` without `]` or a `]` without `[` in the netloc
raises `ValueError("Invalid IPv6 URL")`. -/
def invalidIPv6 (netloc : List Char) : Prop :=
  ('[' ∈ netloc ∧ ']' ∉ netloc) ∨ (']' ∈ netloc ∧ '[' ∉ netloc)

instance (netloc : List Char) : Decidable (invalidIPv6 netloc) := by
  unfold invalidIPv6; infer_instance

/-- The exception `urllib.parse.urlsplit` can raise on the inputs this
development works over. -/
inductive ParseErr where
  | invalidIPv6URL : ParseErr
deriving DecidableEq, Repr

deriving instance DecidableEq for Except

/-- Fallible `urlparse`: `urlsplit` raises `ValueError("Invalid IPv6
URL")` when the extracted netloc has an unbalanced square bracket;
otherwise the result is the total `urlparse` above.  (The other raise
in `urlsplit`, the `_checknetloc` NFKC normalisation check, returns
immediately when the netloc is empty or ASCII -- `if not netloc or
netloc.isascii(): return` -- so it can fire only for non-ASCII
netlocs; the round-trip theorem below therefore restricts netlocs to
ASCII by hypothesis rather than modelling the Unicode NFKC tables.) -/
def urlparseE (url : List Char) : Except ParseErr ParseResult :=
  if invalidIPv6 (splitNetloc (splitScheme url).2).1 then
    .error .invalidIPv6URL
  else
    .ok (urlparse url)

/-! ### URLPath: the `pathlib.PurePosixPath` fragment used by apeye -/

/-- The root of a POSIX pure path: empty (relative), `/`, or `//`
(`pathlib._PosixFlavour.splitroot` distinguishes exactly these three). -/
inductive PathRoot where
  | rel : PathRoot
  | abs : PathRoot
  | dbl : PathRoot
deriving DecidableEq, Repr

/-- Root rendered back to characters. -/
def PathRoot.toList : PathRoot → List Char
  | .rel => []
  | .abs => ['/']
  | .dbl => ['/', '/']

/-- `apeye.url.URLPath`: root marker plus the parsed segments
(`pathlib` drops empty and `.` segments). -/
structure URLPath where
  root : PathRoot
  segments : List (List Char)
deriving DecidableEq, Repr

/-- Helper for `splitCh`: the first chunk and the remaining chunks. -/
def splitChA (sep : Char) : List Char → List Char × List (List Char)
  | [] => ([], [])
  | c :: cs =>
    if c = sep then ([], (splitChA sep cs).1 :: (splitChA sep cs).2)
    else (c :: (splitChA sep cs).1, (splitChA sep cs).2)

/-- Split a character list at every `sep` (like `str.split`). -/
def splitCh (sep : Char) (l : List Char) : List (List Char) :=
  (splitChA sep l).1 :: (splitChA sep l).2

/-- `pathlib` segment normalisation: split on `/`, drop empty and `.`
segments. -/
def normSegs (p : List Char) : List (List Char) :=
  (splitCh '/' p).filter (fun s => s ≠ [] && s ≠ ['.'])

/-- Join segments with `/` (the rendering side of `str.split('/')`). -/
def joinSegs : List (List Char) → List Char
  | [] => []
  | [a] => a
  | a :: b :: t => a ++ '/' :: joinSegs (b :: t)

/-- `URLPath(string)`: `pathlib._PosixFlavour.splitroot` followed by
segment splitting.  The root is `//` exactly when the string has exactly
two leading slashes, `/` for any other positive number. -/
def URLPath.ofList (p : List Char) : URLPath :=
  if p.take 1 = ['/'] then
    ⟨if p.length - (p.dropWhile (· = '/')).length = 2 then .dbl else .abs,
      normSegs (p.dropWhile (· = '/'))⟩
  else
    ⟨.rel, normSegs p⟩

/-- `URLPath.__str__` / `_format_parsed_parts` (apeye's override renders
the empty path as `''` rather than `'.'`). -/
def URLPath.toList (p : URLPath) : List Char :=
  p.root.toList ++ List.intercalate ['/'] p.segments

/-- `pathlib` join of an already-parsed right-hand operand: an absolute
operand replaces the accumulated path, a relative one appends. -/
def URLPath.join (p q : URLPath) : URLPath :=
  if q.root = .rel then ⟨p.root, p.segments ++ q.segments⟩ else q

/-- `pathlib.PurePath.parent`: drop the last segment; the empty path and
a bare root are their own parent. -/
def URLPath.parent (p : URLPath) : URLPath :=
  if p.segments = [] then p else ⟨p.root, p.segments.dropLast⟩

/-- `pathlib.PurePath.name`: the final segment, or empty. -/
def URLPath.name (p : URLPath) : List Char :=
  (p.segments.getLast?).getD []

/-! ### URL -/

/-- `apeye.url.URL`: scheme, netloc and path (query and fragment are
discarded by `URL.__init__` in `src/apeye/url.py` and
`src/apeye/_url.py`). -/
structure URL where
  scheme : List Char
  netloc : List Char
  path : URLPath
deriving DecidableEq, Repr

/-- Build a `URL` from the first three components of a parse. -/
def URL.ofParse (r : ParseResult) : URL :=
  ⟨r.scheme, r.netloc, URLPath.ofList r.path⟩

/-- `URL.__init__`: parse; when the scheme is empty and the string does
not start with `//`, re-parse with `//` prefixed. -/
def URL.ofList (url : List Char) : URL :=
  if (urlparse url).scheme = [] ∧ url.take 2 ≠ ['/', '/'] then
    URL.ofParse (urlparse (['/', '/'] ++ url))
  else
    URL.ofParse (urlparse url)

/-- `URL.__init__` with the parser's raise propagated: each of the (up
to two) `urlparse` calls can raise `ValueError`, which escapes the
constructor. -/
def URL.ofListE (url : List Char) : Except ParseErr URL :=
  match urlparseE url with
  | .error e => .error e
  | .ok r =>
    if r.scheme = [] ∧ url.take 2 ≠ ['/', '/'] then
      Except.map URL.ofParse (urlparseE (['/', '/'] ++ url))
    else
      .ok (URL.ofParse r)

/-- `URL.from_parts`: set scheme and netloc, and force the path to be
root-absolute (prepending `/` when its root is not `/`). -/
def URL.from_parts (scheme netloc : List Char) (path : URLPath) : URL :=
  if path.root = .abs then
    ⟨scheme, netloc, path⟩
  else
    ⟨scheme, netloc, URLPath.ofList ('/' :: path.toList)⟩

/-- `URL.__str__`: `scheme://netloc path` when the scheme is nonempty,
else `netloc path`. -/
def URL.toList (u : URL) : List Char :=
  if u.scheme ≠ [] then
    u.scheme ++ (':' :: '/' :: '/' :: (u.netloc ++ u.path.toList))
  else
    u.netloc ++ u.path.toList

/-- `URL.__eq__`: loose equality on netloc, scheme and path. -/
def URL.eq (a b : URL) : Bool :=
  a.netloc = b.netloc && a.scheme = b.scheme && a.path = b.path

/-- A hash for character lists (stands in for CPython's string hash:
any fixed function of the characters). -/
def listHash (l : List Char) : Nat :=
  l.foldl (fun h c => h * 31 + c.toNat) 7

/-- `URL.__hash__`: `hash((self.scheme, self.netloc, self.path))` -- a
fixed function of exactly the triple used by `URL.__eq__` (the path
hashed through its rendered string, as `pathlib` does). -/
def URL.hashVal (u : URL) : Nat :=
  listHash u.scheme * 1000003 + listHash u.netloc * 8191
    + listHash u.path.toList

/-- `URL.parent`: `from_parts(scheme, netloc, path.parent)`. -/
def URL.parent (u : URL) : URL :=
  URL.from_parts u.scheme u.netloc u.path.parent

/-! ### Exceptions raised by the path model -/

/-- The Python exceptions the path model can signal: the deliberate
`NotImplementedError` of the disabled operations, versus the
input-dependent `ValueError` / `TypeError`. -/
inductive PyExc where
  | notImplementedError : PyExc
  | valueError (msg : List Char) : PyExc
  | typeError (msg : List Char) : PyExc
deriving DecidableEq, Repr

/-- `URLPath.match`: disabled, raises `NotImplementedError`. -/
def URLPath.match' {α : Type} (_ : URLPath) (_ : α) : PyExc :=
  .notImplementedError

/-- `URLPath.as_uri`: disabled, raises `NotImplementedError`. -/
def URLPath.asUri {α : Type} (_ : URLPath) (_ : α) : PyExc :=
  .notImplementedError

/-- `URLPath.__lt__`: disabled, raises `NotImplementedError`. -/
def URLPath.lt (_ _ : URLPath) : PyExc :=
  .notImplementedError

/-- `URLPath.__le__`: disabled, raises `NotImplementedError`. -/
def URLPath.le (_ _ : URLPath) : PyExc :=
  .notImplementedError

/-- `URLPath.__gt__`: disabled, raises `NotImplementedError`. -/
def URLPath.gt (_ _ : URLPath) : PyExc :=
  .notImplementedError

/-- `URLPath.__ge__`: disabled, raises `NotImplementedError`. -/
def URLPath.ge (_ _ : URLPath) : PyExc :=
  .notImplementedError

/-- `URLPath.anchor`: disabled, raises `NotImplementedError`. -/
def URLPath.anchor (_ : URLPath) : PyExc :=
  .notImplementedError

/-- `URLPath.drive`: disabled, raises `NotImplementedError`. -/
def URLPath.drive (_ : URLPath) : PyExc :=
  .notImplementedError

/-! ### Division -/

/-- The kinds of right-hand operand `URL.__truediv__` can receive:
strings, `URLPath`/`PurePosixPath`, `os.PathLike` objects (a `URL`
itself, via `__fspath__ = netloc + path`), and the unsupported kinds
exercised by the test suite. -/
inductive DivKey where
  | str (s : List Char) : DivKey
  | path (p : URLPath) : DivKey
  | url (u : URL) : DivKey
  | intKey (n : Int) : DivKey
  | floatKey : DivKey
  | listKey : DivKey
  | tupleKey : DivKey
  | dictKey : DivKey
  | setKey : DivKey
deriving DecidableEq, Repr

/-- The operand as a path, when `pathlib` accepts it: strings and
path-like objects parse, everything else raises `TypeError` inside
`self.path / key`. -/
def DivKey.asPath : DivKey → Option URLPath
  | .str s => some (URLPath.ofList s)
  | .path p => some p
  | .url u => some (URLPath.ofList (u.netloc ++ u.path.toList))
  | _ => none

/-- The Python type name of an unsupported operand, as it appears in the
`TypeError` message. -/
def DivKey.typeName : DivKey → List Char
  | .str _ => "str".toList
  | .path _ => "URLPath".toList
  | .url _ => "URL".toList
  | .intKey _ => "int".toList
  | .floatKey => "float".toList
  | .listKey => "list".toList
  | .tupleKey => "tuple".toList
  | .dictKey => "dict".toList
  | .setKey => "set".toList

/-- Result of a division: either a value, or the `TypeError` Python
raises when `__truediv__` returns `NotImplemented`, naming both operand
types. -/
inductive DivResult (α : Type) where
  | ok (val : α) : DivResult α
  | typeError (lhs rhs : List Char) : DivResult α
deriving DecidableEq, Repr

/-- `URL.__truediv__`: `from_parts(scheme, netloc, path / key)`; a
`TypeError` from `pathlib` is caught and surfaces as the interpreter's
`unsupported operand type(s)` `TypeError` naming both types. -/
def URL.truediv (u : URL) (k : DivKey) : DivResult URL :=
  match k.asPath with
  | some q => .ok (URL.from_parts u.scheme u.netloc (u.path.join q))
  | none => .typeError ("URL".toList) k.typeName

/-! ### with_name / with_suffix -/

/-- `pathlib.PurePath.with_name`: `ValueError` when the current path has
no final segment or the new name is invalid (empty, rooted, trailing
separator, or not exactly one segment); otherwise replace the final
segment. -/
def URLPath.with_name (p : URLPath) (name : List Char) : Option URLPath :=
  if p.name = [] then none
  else if name = [] ∨ name.getLast? = some '/' ∨ name.take 1 = ['/']
      ∨ (normSegs name).length ≠ 1 then none
  else some ⟨p.root, p.segments.dropLast ++ [name]⟩

/-- `pathlib.PurePath.suffix`: the final segment's last dot-suffix
(`name[i:]` for `i = name.rfind('.')` when `0 < i < len(name)-1`). -/
def URLPath.suffix (p : URLPath) : List Char :=
  if '.' ∈ p.name ∧ 0 < (p.name.reverse.takeWhile (· ≠ '.')).length
      ∧ (p.name.reverse.takeWhile (· ≠ '.')).length + 1 < p.name.length then
    '.' :: (p.name.reverse.takeWhile (· ≠ '.')).reverse
  else []

/-- `pathlib.PurePath.with_suffix`: replace (or strip, for an empty
suffix) the final segment's suffix; `ValueError` for an invalid suffix
or an empty name. -/
def URLPath.with_suffix (p : URLPath) (suffix : List Char) : Option URLPath :=
  if '/' ∈ suffix then none
  else if suffix ≠ [] ∧ suffix.take 1 ≠ ['.'] then none
  else if suffix = ['.'] then none
  else if p.name = [] then none
  else some ⟨p.root, p.segments.dropLast
    ++ [p.name.take (p.name.length - p.suffix.length) ++ suffix]⟩

/-- `URL.with_name`: `from_parts(scheme, netloc, path.with_name(name))`. -/
def URL.with_name (u : URL) (name : List Char) : Option URL :=
  (u.path.with_name name).map (URL.from_parts u.scheme u.netloc)

/-- `URL.with_suffix`: `from_parts(scheme, netloc, path.with_suffix(suffix))`. -/
def URL.with_suffix (u : URL) (suffix : List Char) : Option URL :=
  (u.path.with_suffix suffix).map (URL.from_parts u.scheme u.netloc)

/-! ### RequestsURL and the session model

A `requests.Session` is modelled by its object identity: a `Nat` drawn
from an allocation counter (`World`).  `RequestsURL.__init__` always
allocates a fresh session; `from_parts` runs `cls('')`, hence also
allocates. -/

/-- `apeye.requests_url.RequestsURL`: a `URL` plus the identity of its
`requests.Session`. -/
structure RequestsURL where
  url : URL
  session : Nat
deriving DecidableEq, Repr

/-- The session allocator state: the next unused session identity. -/
structure World where
  nextSession : Nat
deriving DecidableEq, Repr

/-- `RequestsURL.__init__`: parse the URL and create a fresh
`requests.Session`. -/
def RequestsURL.init (w : World) (s : List Char) : RequestsURL × World :=
  (⟨URL.ofList s, w.nextSession⟩, ⟨w.nextSession + 1⟩)

/-- `URL.from_parts` invoked with `cls = RequestsURL`: `obj = cls('')`
runs `RequestsURL.__init__` (allocating a fresh session), then the
scheme, netloc and normalised path are assigned. -/
def RequestsURL.from_parts (w : World) (scheme netloc : List Char)
    (path : URLPath) : RequestsURL × World :=
  let r := RequestsURL.init w []
  (⟨URL.from_parts scheme netloc path, r.1.session⟩, r.2)

/-- `RequestsURL.__truediv__`: `super().__truediv__(other)` (which runs
`from_parts`, allocating a session) followed by
`new_obj.session = self.session`. -/
def RequestsURL.truediv (w : World) (r : RequestsURL) (k : DivKey) :
    DivResult RequestsURL × World :=
  match k.asPath with
  | some q =>
    let res := RequestsURL.from_parts w r.url.scheme r.url.netloc (r.url.path.join q)
    (.ok ⟨res.1.url, r.session⟩, res.2)
  | none => (.typeError ("RequestsURL".toList) k.typeName, w)

/-- `URL.parent` on a `RequestsURL`: plain `from_parts`, with no session
reassignment afterwards. -/
def RequestsURL.parent (w : World) (r : RequestsURL) : RequestsURL × World :=
  RequestsURL.from_parts w r.url.scheme r.url.netloc r.url.path.parent

/-- `TrailingRequestsURL.__str__`: the base rendering with one `/`
appended unconditionally. -/
def TrailingRequestsURL.toList (r : RequestsURL) : List Char :=
  URL.toList r.url ++ ['/']

/-! ### Query mapping (modelled from the spec)

The `URL.__init__` in `src/apeye/url.py` and `src/apeye/_url.py`
discards the query component, yet `src/apeye/requests_url.py`
(`RequestsURL.get`) and the test suite read a `URL.query` attribute:
the defining code is not under `src/`, so it is modelled from the
spec here. -/

/-- Append a value to a key's ordered list in an association list,
keeping key insertion order. -/
def addQueryVal (m : List (List Char × List (List Char)))
    (k v : List Char) : List (List Char × List (List Char)) :=
  match m with
  | [] => [(k, [v])]
  | (k', vs) :: rest =>
    if k' = k then (k', vs ++ [v]) :: rest
    else (k', vs) :: addQueryVal rest k v

/-- Modelled from the spec: "Query string is parsed into a mapping of
name → ordered list of string values (multiple occurrences of the same
parameter name are preserved in order)" -- split on `&`, split each
`name=value` pair at the first `=`, group by name. -/
def parseQuery (q : List Char) : List (List Char × List (List Char)) :=
  ((splitCh '&' q).filterMap fun chunk =>
    if '=' ∈ chunk then
      some (chunk.takeWhile (· ≠ '='), (chunk.dropWhile (· ≠ '=')).drop 1)
    else none).foldl (fun m kv => addQueryVal m kv.1 kv.2) []

/-- Modelled from the spec: a URL value carrying the parsed query
mapping (the `query` attribute missing from the `URL.__init__` under
`src/`). -/
structure URLQ where
  scheme : List Char
  netloc : List Char
  path : URLPath
  query : List (List Char × List (List Char))
deriving DecidableEq, Repr

/-- Modelled from the spec: constructing a URL value with its query
mapping -- the same parse (including the `//` fix-up) with the query
component of the winning parse fed through `parseQuery`. -/
def URLQ.ofList (url : List Char) : URLQ :=
  let r :=
    if (urlparse url).scheme = [] ∧ url.take 2 ≠ ['/', '/'] then
      urlparse (['/', '/'] ++ url)
    else urlparse url
  ⟨r.scheme, r.netloc, URLPath.ofList r.path, parseQuery r.query⟩

/-- Modelled from the spec: division produces a child via `from_parts`,
whose `query=None` default means "the parent's query never leaks into a
child produced by division". -/
def URLQ.truediv (u : URLQ) (k : DivKey) : DivResult URLQ :=
  match k.asPath with
  | some q =>
    let base := URL.from_parts u.scheme u.netloc (u.path.join q)
    .ok ⟨base.scheme, base.netloc, base.path, []⟩
  | none => .typeError ("URL".toList) k.typeName

/-! ### relative_to (modelled from the spec)

`URLPath.relative_to` under `src/` raises `NotImplementedError` and the
`URL` class under `src/` has no `relative_to` at all, yet the test
suite exercises `URL.relative_to`: the defining code is not under
`src/`, so it is modelled from the spec (§4.3). -/

/-- Modelled from the spec: "the comparison is always performed using
both paths forced absolute (prefixing `/` if not already)". -/
def URLPath.forceAbsolute (p : URLPath) : URLPath :=
  if p.root = .rel then ⟨.abs, p.segments⟩ else p

/-- The operand kinds `URL.relative_to` accepts: "a URL, a string, or an
absolute path". -/
inductive RelOther where
  | url (u : URL) : RelOther
  | str (s : List Char) : RelOther
  | path (p : URLPath) : RelOther
deriving DecidableEq, Repr

/-- Lower-cased copy of a character list (RFC-4343 host comparison). -/
def lowerList (l : List Char) : List Char :=
  l.map Char.toLower

/-- Modelled from the spec: the path-suffix computation shared by all
`relative_to` cases -- both paths forced absolute, segment-wise exact
prefix match, `ValueError` containing "does not start with" otherwise. -/
def relPathCore (a b : URLPath) (selfRepr otherRepr : List Char) :
    Except PyExc URLPath :=
  if a.forceAbsolute.segments.take b.forceAbsolute.segments.length
      = b.forceAbsolute.segments then
    .ok ⟨.rel, a.forceAbsolute.segments.drop b.forceAbsolute.segments.length⟩
  else
    .error (.valueError (selfRepr ++ " does not start with ".toList ++ otherRepr))

/-- Modelled from the spec: `relative_to` against another URL value --
"netloc must match case-insensitively (compare lowered copies, do not
mutate either value) or the operation fails with a 'does not start
with' error". -/
def relToURL (u v : URL) : Except PyExc URLPath :=
  if lowerList v.netloc ≠ lowerList u.netloc then
    .error (.valueError (u.toList ++ " does not start with ".toList ++ v.toList))
  else
    relPathCore u.path v.path u.toList v.toList

/-- Modelled from the spec: `URL.relative_to(other)` for the three
accepted operand kinds; "when `other` is a non-absolute PathSegments,
fail immediately". -/
def URL.relative_to (u : URL) (other : RelOther) : Except PyExc URLPath :=
  match other with
  | .url v => relToURL u v
  | .str s => relToURL u (URL.ofList s)
  | .path p =>
    if p.root = .rel then
      .error (.valueError
        ("relative_to cannot be used with relative URLPath objects".toList))
    else
      relPathCore u.path p u.toList p.toList

/-! ### Well-formedness of parsed paths

Every `URLPath` produced by the constructor has nonempty segments that
contain no separator; segments coming from a URL parse additionally
contain none of the delimiter characters `?`, `#`, `;`. -/

/-- Segments as produced by the constructor: nonempty, no `/`, not `.`. -/
def URLPath.SegsOK (p : URLPath) : Prop :=
  ∀ s ∈ p.segments, s ≠ [] ∧ s ≠ ['.'] ∧ '/' ∉ s

instance (p : URLPath) : Decidable p.SegsOK := by
  unfold URLPath.SegsOK; infer_instance

/-- Segments as produced by a URL parse: additionally free of the URL
delimiters `?`, `#` and `;`. -/
def URLPath.WF (p : URLPath) : Prop :=
  ∀ s ∈ p.segments, s ≠ [] ∧ s ≠ ['.'] ∧ '/' ∉ s ∧ '?' ∉ s ∧ '#' ∉ s ∧ ';' ∉ s

instance (p : URLPath) : Decidable p.WF := by
  unfold URLPath.WF; infer_instance

theorem URLPath.WF.segsOK {p : URLPath} (h : p.WF) : p.SegsOK :=
  fun s hs => ⟨(h s hs).1, (h s hs).2.1, (h s hs).2.2.1⟩

/-! ### List helper lemmas -/

theorem takeWhile_append_all {p : Char → Bool} {l₁ : List Char}
    (l₂ : List Char) (h : ∀ a ∈ l₁, p a = true) :
    (l₁ ++ l₂).takeWhile p = l₁ ++ l₂.takeWhile p := by
  induction l₁ with
  | nil => rfl
  | cons a t ih =>
    simp only [List.cons_append, List.takeWhile_cons,
      h a (List.mem_cons_self a t)]
    exact congrArg (a :: ·) (ih fun x hx => h x (List.mem_cons_of_mem a hx))

theorem dropWhile_append_all {p : Char → Bool} {l₁ : List Char}
    (l₂ : List Char) (h : ∀ a ∈ l₁, p a = true) :
    (l₁ ++ l₂).dropWhile p = l₂.dropWhile p := by
  induction l₁ with
  | nil => rfl
  | cons a t ih =>
    simp only [List.cons_append, List.dropWhile_cons,
      h a (List.mem_cons_self a t), if_true]
    exact ih fun x hx => h x (List.mem_cons_of_mem a hx)

theorem takeWhile_eq_self_of_all {p : Char → Bool} {l : List Char}
    (h : ∀ a ∈ l, p a = true) : l.takeWhile p = l := by
  have := @takeWhile_append_all p l [] h
  simpa using this

/-! ### splitCh / joinSegs lemmas -/

theorem splitChA_no_sep {sep : Char} {l : List Char} (h : sep ∉ l) :
    splitChA sep l = (l, []) := by
  induction l with
  | nil => rfl
  | cons c cs ih =>
    have hc : c ≠ sep := fun hcc => h (hcc ▸ List.mem_cons_self c cs)
    have ht : sep ∉ cs := fun hm => h (List.mem_cons_of_mem c hm)
    simp [splitChA, hc, ih ht]

theorem splitCh_no_sep {sep : Char} {l : List Char} (h : sep ∉ l) :
    splitCh sep l = [l] := by
  simp [splitCh, splitChA_no_sep h]

theorem splitChA_append_sep {sep : Char} {a : List Char} (rest : List Char)
    (h : sep ∉ a) :
    splitChA sep (a ++ sep :: rest)
      = (a, (splitChA sep rest).1 :: (splitChA sep rest).2) := by
  induction a with
  | nil => simp [splitChA]
  | cons c cs ih =>
    have hc : c ≠ sep := fun hcc => h (hcc ▸ List.mem_cons_self c cs)
    have ht : sep ∉ cs := fun hm => h (List.mem_cons_of_mem c hm)
    simp [splitChA, hc, ih ht]

theorem splitCh_append_sep {sep : Char} {a : List Char} (rest : List Char)
    (h : sep ∉ a) : splitCh sep (a ++ sep :: rest) = a :: splitCh sep rest := by
  simp [splitCh, splitChA_append_sep rest h]

theorem splitChA_not_mem (sep : Char) (l : List Char) :
    sep ∉ (splitChA sep l).1 ∧ ∀ x ∈ (splitChA sep l).2, sep ∉ x := by
  induction l with
  | nil => simp [splitChA]
  | cons c cs ih =>
    by_cases hc : c = sep
    · simpa [splitChA, hc] using ⟨ih.1, ih.2⟩
    · constructor
      · intro hm
        rw [show splitChA sep (c :: cs) = (c :: (splitChA sep cs).1, (splitChA sep cs).2)
          from by simp [splitChA, hc]] at hm
        rcases List.mem_cons.mp hm with h1 | h1
        · exact hc h1.symm
        · exact ih.1 h1
      · intro x hx
        rw [show splitChA sep (c :: cs) = (c :: (splitChA sep cs).1, (splitChA sep cs).2)
          from by simp [splitChA, hc]] at hx
        exact ih.2 x hx

theorem splitCh_not_mem (sep : Char) (l : List Char) :
    ∀ x ∈ splitCh sep l, sep ∉ x := by
  intro x hx
  rcases List.mem_cons.mp hx with h1 | h1
  · exact h1 ▸ (splitChA_not_mem sep l).1
  · exact (splitChA_not_mem sep l).2 x h1

theorem normSegs_nil : normSegs [] = [] := by decide

theorem normSegs_joinSegs {segs : List (List Char)}
    (h : ∀ s ∈ segs, s ≠ [] ∧ s ≠ ['.'] ∧ '/' ∉ s) :
    normSegs (joinSegs segs) = segs := by
  induction segs with
  | nil => exact normSegs_nil
  | cons a t ih =>
    obtain ⟨ha1, ha2, ha3⟩ := h a (List.mem_cons_self a t)
    have ih' := ih fun s hs => h s (List.mem_cons_of_mem a hs)
    cases t with
    | nil =>
      show normSegs a = [a]
      unfold normSegs
      rw [splitCh_no_sep ha3]
      simp [List.filter_cons, ha1, ha2]
    | cons b t' =>
      show normSegs (a ++ '/' :: joinSegs (b :: t')) = a :: b :: t'
      unfold normSegs
      rw [splitCh_append_sep _ ha3, List.filter_cons,
        if_pos (by simp [ha1, ha2])]
      unfold normSegs at ih'
      rw [ih']

theorem joinSegs_shape {segs : List (List Char)}
    (h : ∀ s ∈ segs, s ≠ [] ∧ s ≠ ['.'] ∧ '/' ∉ s) :
    segs = [] ∨ ∃ c t, joinSegs segs = c :: t ∧ c ≠ '/' := by
  cases segs with
  | nil => exact Or.inl rfl
  | cons a t =>
    obtain ⟨ha1, _, ha3⟩ := h a (List.mem_cons_self a t)
    cases ha : a with
    | nil => exact absurd ha ha1
    | cons c a' =>
      have hc : c ≠ '/' := fun hcc => ha3 (ha ▸ hcc ▸ List.mem_cons_self c a')
      cases t with
      | nil => exact Or.inr ⟨c, a', by simp [joinSegs], hc⟩
      | cons b t' =>
        exact Or.inr ⟨c, a' ++ '/' :: joinSegs (b :: t'), by simp [joinSegs], hc⟩

theorem URLPath.toList_rel (segs : List (List Char)) :
    URLPath.toList ⟨.rel, segs⟩ = joinSegs segs := by
  show PathRoot.toList .rel ++ List.intercalate ['/'] segs = joinSegs segs
  simp only [PathRoot.toList, List.nil_append]
  induction segs with
  | nil => rfl
  | cons a t ih =>
    cases t with
    | nil => simp [List.intercalate, joinSegs, List.intersperse]
    | cons b t' =>
      show List.intercalate ['/'] (a :: b :: t') = a ++ '/' :: joinSegs (b :: t')
      rw [← ih]
      simp [List.intercalate, List.intersperse]

theorem URLPath.toList_eq (p : URLPath) :
    p.toList = p.root.toList ++ joinSegs p.segments := by
  obtain ⟨r, segs⟩ := p
  have := URLPath.toList_rel segs
  show PathRoot.toList r ++ List.intercalate ['/'] segs
    = PathRoot.toList r ++ joinSegs segs
  rw [show List.intercalate ['/'] segs = joinSegs segs from by
    simpa [URLPath.toList, PathRoot.toList] using this]

/-- Normalisation is the identity on rendered constructor-produced
paths: `URLPath(str(p)) == p`. -/
theorem URLPath.ofList_toList {p : URLPath} (h : p.SegsOK) :
    URLPath.ofList p.toList = p := by
  obtain ⟨r, segs⟩ := p
  have hs : ∀ s ∈ segs, s ≠ [] ∧ s ≠ ['.'] ∧ '/' ∉ s := h
  have hns := normSegs_joinSegs hs
  rw [URLPath.toList_eq]
  rcases joinSegs_shape hs with hj | ⟨c, t, hj, hc⟩
  · subst hj
    cases r <;> simp [PathRoot.toList, joinSegs, URLPath.ofList,
      normSegs_nil, List.dropWhile]
  · rw [hj] at hns
    have hc' : ¬(c = '/') := hc
    have hd : (c :: t).dropWhile (· = '/') = c :: t := by
      simp [List.dropWhile_cons, hc']
    rw [hj]
    cases r
    · show URLPath.ofList ([] ++ c :: t) = _
      rw [List.nil_append]
      unfold URLPath.ofList
      rw [if_neg (by simp [hc']), hns]
    · show URLPath.ofList (['/'] ++ c :: t) = _
      unfold URLPath.ofList
      rw [if_pos (by simp)]
      rw [show (['/'] ++ c :: t).dropWhile (· = '/') = c :: t from by
        simp [List.dropWhile_cons, hd]]
      rw [if_neg (by simp only [List.length_append, List.length_cons,
        List.length_nil]; omega), hns]
    · show URLPath.ofList (['/', '/'] ++ c :: t) = _
      unfold URLPath.ofList
      rw [if_pos (by simp)]
      rw [show (['/', '/'] ++ c :: t).dropWhile (· = '/') = c :: t from by
        simp [List.dropWhile_cons, hd]]
      rw [if_pos (by simp only [List.length_append, List.length_cons,
        List.length_nil]; omega), hns]

/-! ### Parsing lemmas for rendered URLs -/

theorem splitScheme_not_like {l : List Char} (h : ¬ schemeLikeStart l) :
    splitScheme l = ([], l) := by
  unfold splitScheme
  rw [if_neg h]

theorem splitScheme_slash (l : List Char) : splitScheme ('/' :: l) = ([], '/' :: l) := by
  refine splitScheme_not_like fun hlike => ?_
  obtain ⟨-, -, h3⟩ := hlike
  rw [List.takeWhile_cons, if_pos (by decide)] at h3
  have := (List.all_eq_true.mp h3) '/' (List.mem_cons_self _ _)
  exact absurd this (by decide)

theorem splitScheme_scheme {sc : List Char} (rest : List Char) (h1 : sc ≠ [])
    (h2 : ∀ c ∈ sc, isSchemeChar c = true) :
    splitScheme (sc ++ ':' :: rest) = (sc.map Char.toLower, rest) := by
  have hnc : ∀ c ∈ sc, (decide (c ≠ ':')) = true := by
    intro c hc
    simp only [decide_eq_true_eq]
    intro hcc
    exact absurd (hcc ▸ h2 c hc) (by decide)
  have hpre : (sc ++ ':' :: rest).takeWhile (· ≠ ':') = sc := by
    rw [takeWhile_append_all _ hnc, List.takeWhile_cons, if_neg (by simp)]
    simp
  have hlike : schemeLikeStart (sc ++ ':' :: rest) := by
    refine ⟨?_, ?_, ?_⟩
    · rw [hpre]; simp only [List.length_append, List.length_cons]; omega
    · rw [hpre]; exact h1
    · rw [hpre]; exact List.all_eq_true.mpr h2
  unfold splitScheme
  rw [if_pos hlike, hpre]
  refine congrArg _ ?_
  rw [show sc ++ ':' :: rest = (sc ++ [':']) ++ rest by simp,
    show sc.length + 1 = (sc ++ [':']).length by simp]
  exact List.drop_left _ _

theorem splitNetloc_dslash {nl rest : List Char}
    (hnl : ∀ c ∈ nl, isNetlocChar c = true)
    (hrest : rest = [] ∨ ∃ t, rest = '/' :: t) :
    splitNetloc ('/' :: '/' :: (nl ++ rest)) = (nl, rest) := by
  have htw : rest.takeWhile isNetlocChar = [] := by
    rcases hrest with h | ⟨t, h⟩ <;> subst h
    · rfl
    · rw [List.takeWhile_cons, if_neg (by decide)]
  have hdw : rest.dropWhile isNetlocChar = rest := by
    rcases hrest with h | ⟨t, h⟩ <;> subst h
    · rfl
    · rw [List.dropWhile_cons, if_neg (by decide)]
  unfold splitNetloc
  rw [if_pos (by simp)]
  show ((nl ++ rest).takeWhile isNetlocChar, (nl ++ rest).dropWhile isNetlocChar)
    = (nl, rest)
  rw [takeWhile_append_all _ hnl, dropWhile_append_all _ hnl, htw, hdw,
    List.append_nil]

theorem splitNetloc_not_dslash {l : List Char} (h : l.take 2 ≠ ['/', '/']) :
    splitNetloc l = ([], l) := by
  unfold splitNetloc
  rw [if_neg h]

theorem splitFragment_id {l : List Char} (h : '#' ∉ l) :
    splitFragment l = (l, none) := by
  unfold splitFragment
  rw [if_neg h]

theorem splitQuery_id {l : List Char} (h : '?' ∉ l) : splitQuery l = (l, []) := by
  unfold splitQuery
  rw [if_neg h]

theorem splitParams_id {l : List Char} (h : ';' ∉ l) : splitParams l = l := by
  unfold splitParams
  by_cases hs : '/' ∈ l
  · rw [if_pos hs]
    have hsub : ∀ a ∈ (l.reverse.takeWhile (· ≠ '/')).reverse, a ∈ l := by
      intro a ha
      rw [List.mem_reverse] at ha
      exact List.mem_reverse.mp ((List.takeWhile_prefix _).subset ha)
    have htw : ((l.reverse.takeWhile (· ≠ '/')).reverse).takeWhile (· ≠ ';')
        = (l.reverse.takeWhile (· ≠ '/')).reverse := by
      refine takeWhile_eq_self_of_all ?_
      intro a ha
      simp only [decide_eq_true_eq]
      intro hcc
      exact h (hcc ▸ hsub a ha)
    rw [htw, ← List.reverse_append, List.takeWhile_append_dropWhile,
      List.reverse_reverse]
  · rw [if_neg hs]
    refine takeWhile_eq_self_of_all ?_
    intro a ha
    simp only [decide_eq_true_eq]
    intro hcc
    exact h (hcc ▸ ha)

theorem mem_joinSegs {c : Char} {segs : List (List Char)}
    (h : c ∈ joinSegs segs) : c = '/' ∨ ∃ s ∈ segs, c ∈ s := by
  induction segs with
  | nil => simp [joinSegs] at h
  | cons a t ih =>
    cases t with
    | nil => exact Or.inr ⟨a, List.mem_cons_self a [], h⟩
    | cons b t' =>
      rcases List.mem_append.mp h with h1 | h1
      · exact Or.inr ⟨a, List.mem_cons_self a _, h1⟩
      · rcases List.mem_cons.mp h1 with h2 | h2
        · exact Or.inl h2
        · rcases ih h2 with h3 | ⟨s, hsm, hcm⟩
          · exact Or.inl h3
          · exact Or.inr ⟨s, List.mem_cons_of_mem a hsm, hcm⟩

theorem toList_not_mem {p : URLPath} {c : Char} (hc : c ≠ '/')
    (hseg : ∀ s ∈ p.segments, c ∉ s) : c ∉ p.toList := by
  rw [URLPath.toList_eq]
  intro hm
  rcases List.mem_append.mp hm with h1 | h1
  · obtain ⟨r, segs⟩ := p
    cases r <;> simp [PathRoot.toList] at h1 <;> exact hc h1
  · rcases mem_joinSegs h1 with h2 | ⟨s, hsm, hcm⟩
    · exact hc h2
    · exact hseg s hsm hcm

/-- The rendered path of a parse-shaped `URLPath` is empty or starts
with `/`. -/
theorem toList_shape {p : URLPath} (hwf : p.WF)
    (hroot : p.root ≠ .rel ∨ p.segments = []) :
    p.toList = [] ∨ ∃ t, p.toList = '/' :: t := by
  obtain ⟨r, segs⟩ := p
  cases r
  · rcases hroot with h | h
    · exact absurd rfl h
    · subst h
      exact Or.inl (by rw [URLPath.toList_eq]; rfl)
  · exact Or.inr ⟨joinSegs segs, by rw [URLPath.toList_eq]; rfl⟩
  · exact Or.inr ⟨'/' :: joinSegs segs, by rw [URLPath.toList_eq]; rfl⟩

/-- Parsing `//netloc path` for a clean netloc and a parse-shaped
rendered path recovers the components exactly. -/
theorem urlparse_render_dslash {nl : List Char} {p : URLPath}
    (hnl : ∀ c ∈ nl, isNetlocChar c = true) (hwf : p.WF)
    (hroot : p.root ≠ .rel ∨ p.segments = []) :
    urlparse ('/' :: '/' :: (nl ++ p.toList)) = ⟨[], nl, p.toList, [], none⟩ := by
  have hq : '?' ∉ p.toList :=
    toList_not_mem (by decide) fun s hs => ((hwf s hs).2.2.2.1)
  have hh : '#' ∉ p.toList :=
    toList_not_mem (by decide) fun s hs => ((hwf s hs).2.2.2.2.1)
  have hsemi : ';' ∉ p.toList :=
    toList_not_mem (by decide) fun s hs => ((hwf s hs).2.2.2.2.2)
  unfold urlparse
  rw [splitScheme_slash, splitNetloc_dslash hnl (toList_shape hwf hroot),
    splitFragment_id hh, splitQuery_id hq, splitParams_id hsemi, ite_self]

/-- Parsing `scheme://netloc path` for a lower-case scheme recovers the
components exactly. -/
theorem urlparse_render_scheme {sc nl : List Char} {p : URLPath}
    (h1 : sc ≠ []) (h2 : ∀ c ∈ sc, isSchemeChar c = true)
    (hnl : ∀ c ∈ nl, isNetlocChar c = true) (hwf : p.WF)
    (hroot : p.root ≠ .rel ∨ p.segments = []) :
    urlparse (sc ++ ':' :: '/' :: '/' :: (nl ++ p.toList))
      = ⟨sc.map Char.toLower, nl, p.toList, [], none⟩ := by
  have hq : '?' ∉ p.toList :=
    toList_not_mem (by decide) fun s hs => ((hwf s hs).2.2.2.1)
  have hh : '#' ∉ p.toList :=
    toList_not_mem (by decide) fun s hs => ((hwf s hs).2.2.2.2.1)
  have hsemi : ';' ∉ p.toList :=
    toList_not_mem (by decide) fun s hs => ((hwf s hs).2.2.2.2.2)
  unfold urlparse
  rw [splitScheme_scheme _ h1 h2,
    splitNetloc_dslash hnl (toList_shape hwf hroot),
    splitFragment_id hh, splitQuery_id hq, splitParams_id hsemi, ite_self]

/-! ### Normalisation lemmas for `from_parts` -/

theorem normSegs_segsOK (x : List Char) :
    ∀ s ∈ normSegs x, s ≠ [] ∧ s ≠ ['.'] ∧ '/' ∉ s := by
  intro s hs
  unfold normSegs at hs
  have hmem := List.mem_of_mem_filter hs
  have hpred := List.of_mem_filter hs
  simp only [Bool.and_eq_true, decide_eq_true_eq] at hpred
  exact ⟨hpred.1, hpred.2, splitCh_not_mem '/' x s hmem⟩

theorem URLPath.ofList_segsOK (x : List Char) : (URLPath.ofList x).SegsOK := by
  intro s hs
  unfold URLPath.ofList at hs
  by_cases h : x.take 1 = ['/']
  · rw [if_pos h] at hs
    exact normSegs_segsOK _ s hs
  · rw [if_neg h] at hs
    exact normSegs_segsOK _ s hs

theorem segsOK_shape {p : URLPath} (h : p.SegsOK) :
    p.segments = [] ∨ ∃ a t, p.segments = a :: t ∧ a ≠ [] ∧ a.head? ≠ some '/' := by
  cases hs : p.segments with
  | nil => exact Or.inl rfl
  | cons a t =>
    obtain ⟨h1, -, h3⟩ := h a (hs ▸ List.mem_cons_self a t)
    refine Or.inr ⟨a, t, rfl, h1, ?_⟩
    cases a with
    | nil => exact absurd rfl h1
    | cons c a' =>
      simp only [List.head?_cons, ne_eq, Option.some.injEq]
      intro hcc
      exact h3 (hcc ▸ List.mem_cons_self c a')

theorem joinSegs_shape' {segs : List (List Char)}
    (h : segs = [] ∨ ∃ a t, segs = a :: t ∧ a ≠ [] ∧ a.head? ≠ some '/') :
    segs = [] ∨ ∃ c t, joinSegs segs = c :: t ∧ c ≠ '/' := by
  rcases h with h | ⟨a, t, hst, ha, hh⟩
  · exact Or.inl h
  · cases a with
    | nil => exact absurd rfl ha
    | cons c a' =>
      have hc : c ≠ '/' := by
        simp only [List.head?_cons, ne_eq, Option.some.injEq] at hh
        exact hh
      subst hst
      cases t with
      | nil => exact Or.inr ⟨c, a', by simp [joinSegs], hc⟩
      | cons b t' =>
        exact Or.inr ⟨c, a' ++ '/' :: joinSegs (b :: t'), by simp [joinSegs], hc⟩

theorem ofList_root_abs {l : List Char} (h1 : l.take 1 = ['/'])
    (h2 : l.length - (l.dropWhile (· = '/')).length ≠ 2) :
    (URLPath.ofList l).root = .abs := by
  unfold URLPath.ofList
  rw [if_pos h1]
  show (if l.length - (l.dropWhile (· = '/')).length = 2
    then PathRoot.dbl else .abs) = .abs
  rw [if_neg h2]

/-- `from_parts` always produces a `/`-rooted path, for any path whose
leading segment does not itself smuggle in a separator. -/
theorem from_parts_root' (sc nl : List Char) {p : URLPath}
    (h : p.segments = [] ∨ ∃ a t, p.segments = a :: t ∧ a ≠ [] ∧ a.head? ≠ some '/') :
    (URL.from_parts sc nl p).path.root = .abs := by
  unfold URL.from_parts
  by_cases hr : p.root = .abs
  · rw [if_pos hr]
    exact hr
  · rw [if_neg hr]
    show (URLPath.ofList ('/' :: p.toList)).root = .abs
    rw [URLPath.toList_eq]
    rcases joinSegs_shape' h with hs | ⟨c, t, hjs, hc⟩
    · rw [hs]
      cases hroot : p.root
      · decide
      · exact absurd hroot hr
      · decide
    · have hc' : ¬(c = '/') := hc
      rw [hjs]
      cases hroot : p.root
      · apply ofList_root_abs
        · rfl
        · rw [show ('/' :: (PathRoot.rel.toList ++ c :: t)).dropWhile (· = '/')
              = c :: t from by simp [PathRoot.toList, List.dropWhile_cons, hc']]
          simp only [PathRoot.toList, List.nil_append, List.length_cons]
          omega
      · exact absurd hroot hr
      · apply ofList_root_abs
        · rfl
        · rw [show ('/' :: (PathRoot.dbl.toList ++ c :: t)).dropWhile (· = '/')
              = c :: t from by simp [PathRoot.toList, List.dropWhile_cons, hc']]
          simp only [PathRoot.toList, List.cons_append, List.nil_append,
            List.length_cons]
          omega

theorem from_parts_root (sc nl : List Char) {p : URLPath} (h : p.SegsOK) :
    (URL.from_parts sc nl p).path.root = .abs :=
  from_parts_root' sc nl (segsOK_shape h)

/-- On constructor-produced paths `from_parts` is exactly "force the
root to `/`, keep the segments". -/
theorem from_parts_eval (sc nl : List Char) {p : URLPath} (h : p.SegsOK) :
    URL.from_parts sc nl p = ⟨sc, nl, ⟨.abs, p.segments⟩⟩ := by
  obtain ⟨r, segs⟩ := p
  have hs : ∀ s ∈ segs, s ≠ [] ∧ s ≠ ['.'] ∧ '/' ∉ s := h
  unfold URL.from_parts
  cases r
  · rw [if_neg (by simp)]
    show URL.mk sc nl (URLPath.ofList ('/' :: URLPath.toList ⟨.rel, segs⟩)) = _
    rw [URLPath.toList_rel]
    rw [show ('/' :: joinSegs segs) = URLPath.toList ⟨.abs, segs⟩ from by
      rw [URLPath.toList_eq]; rfl]
    have h' : (URLPath.mk .abs segs).SegsOK := h
    rw [URLPath.ofList_toList h']
  · rw [if_pos rfl]
  · rw [if_neg (by simp)]
    show URL.mk sc nl (URLPath.ofList ('/' :: URLPath.toList ⟨.dbl, segs⟩)) = _
    rw [URLPath.toList_eq]
    refine congrArg (URL.mk sc nl) ?_
    show URLPath.ofList ('/' :: '/' :: '/' :: joinSegs segs) = ⟨.abs, segs⟩
    rcases joinSegs_shape hs with h0 | ⟨c, t, hjs, hc⟩
    · rw [h0]
      show URLPath.ofList ['/', '/', '/'] = _
      decide
    · have hc' : ¬(c = '/') := hc
      have hns := normSegs_joinSegs hs
      rw [hjs] at hns
      unfold URLPath.ofList
      rw [if_pos (by rw [hjs]; rfl)]
      rw [show ('/' :: '/' :: '/' :: joinSegs segs).dropWhile (· = '/')
          = c :: t from by rw [hjs]; simp [List.dropWhile_cons, hc']]
      rw [if_neg (by rw [hjs]; simp only [List.length_cons]; omega), hns]

theorem join_segsOK {p q : URLPath} (hp : p.SegsOK) (hq : q.SegsOK) :
    (p.join q).SegsOK := by
  unfold URLPath.join
  by_cases h : q.root = .rel
  · rw [if_pos h]
    intro s hs
    rcases List.mem_append.mp hs with h1 | h1
    exacts [hp s h1, hq s h1]
  · rw [if_neg h]
    exact hq

/-! ### The fallible parser -/

theorem except_map_ok {ε α β : Type} (f : α → β) (a : α) :
    Except.map f (Except.ok a : Except ε α) = .ok (f a) := rfl

theorem urlparseE_ok {url : List Char}
    (h : ¬ invalidIPv6 (splitNetloc (splitScheme url).2).1) :
    urlparseE url = .ok (urlparse url) := by
  unfold urlparseE
  rw [if_neg h]

theorem ofListE_eq {url : List Char}
    (h : ¬ invalidIPv6 (splitNetloc (splitScheme url).2).1) :
    URL.ofListE url
      = if (urlparse url).scheme = [] ∧ url.take 2 ≠ ['/', '/'] then
          Except.map URL.ofParse (urlparseE (['/', '/'] ++ url))
        else .ok (URL.ofParse (urlparse url)) := by
  unfold URL.ofListE
  rw [urlparseE_ok h]

/-- When neither parse raises, the fallible constructor computes
exactly the total one. -/
theorem ofListE_agrees {url : List Char}
    (h1 : ¬ invalidIPv6 (splitNetloc (splitScheme url).2).1)
    (h2 : ¬ invalidIPv6 (splitNetloc (splitScheme (['/', '/'] ++ url)).2).1) :
    URL.ofListE url = .ok (URL.ofList url) := by
  rw [ofListE_eq h1]
  unfold URL.ofList
  by_cases hc : (urlparse url).scheme = [] ∧ url.take 2 ≠ ['/', '/']
  · rw [if_pos hc, if_pos hc, urlparseE_ok h2, except_map_ok]
  · rw [if_neg hc, if_neg hc]

/-! ### Claim C1 -/

/-- C1, counterexample: the claim "for every URL value `u`,
`URL(str(u)) == u`" fails at `u = URL("mailto:someone@example.com")`:
the parse gives scheme `mailto`, empty netloc and the relative path
`someone@example.com`; `str(u)` is `mailto://someone@example.com`,
which re-parses with netloc `someone@example.com` and an empty path.
Neither parse raises (first two conjuncts), so the total constructor
computes exactly the program's values here. -/
theorem claim_C1_counterexample :
    URL.ofListE ("mailto:someone@example.com".toList)
      = .ok (URL.ofList ("mailto:someone@example.com".toList))
    ∧ URL.ofListE (URL.toList (URL.ofList ("mailto:someone@example.com".toList)))
      = .ok (URL.ofList (URL.toList (URL.ofList ("mailto:someone@example.com".toList))))
    ∧ URL.eq
      (URL.ofList (URL.toList (URL.ofList ("mailto:someone@example.com".toList))))
      (URL.ofList ("mailto:someone@example.com".toList)) = false := by
  decide

/-- C1, amended: re-parsing the rendered string neither raises nor
changes the value, for URL values whose components are parse-shaped --
scheme made of lower-case scheme characters, netloc made of ASCII
netloc characters without an unbalanced square bracket (so neither the
`Invalid IPv6 URL` raise nor the non-ASCII-only `_checknetloc` raise
can fire), normalised delimiter-free path segments, path empty or
rooted -- provided (i) when the scheme is empty, `netloc ++ path` does
not itself begin with a scheme-like prefix, and (ii) when the scheme
is empty it is not the case that the netloc is empty while the path
root is `//`.  Under the same proviso (ii), an empty-scheme URL never
renders with a leading `//`. -/
theorem claim_C1 (u : URL)
    (hsc : ∀ c ∈ u.scheme, isSchemeChar c = true)
    (hlow : u.scheme.map Char.toLower = u.scheme)
    (hnl : ∀ c ∈ u.netloc, isNetlocChar c = true)
    (hascii : ∀ c ∈ u.netloc, c.toNat < 128)
    (hbr : ¬ invalidIPv6 u.netloc)
    (hwf : u.path.WF)
    (hroot : u.path.root ≠ .rel ∨ u.path.segments = [])
    (hq : u.scheme = [] → ¬ schemeLikeStart (u.netloc ++ u.path.toList))
    (hdbl : u.scheme = [] → ¬(u.netloc = [] ∧ u.path.root = .dbl)) :
    URL.ofListE u.toList = .ok u
      ∧ (u.scheme = [] → u.toList.take 2 ≠ ['/', '/']) := by
  obtain ⟨sc, nl, p⟩ := u
  by_cases hsc0 : sc = []
  · subst hsc0
    have htl : URL.toList ⟨[], nl, p⟩ = nl ++ p.toList := by
      unfold URL.toList
      rw [if_neg (by simp)]
    have htake : (nl ++ p.toList).take 2 ≠ ['/', '/'] := by
      cases hnl0 : nl with
      | cons c nl' =>
        subst hnl0
        have hcnet := hnl c (List.mem_cons_self c nl')
        have hcs : c ≠ '/' := by
          intro hcc
          rw [hcc] at hcnet
          exact absurd hcnet (by decide)
        intro hcon
        rw [List.cons_append] at hcon
        have h2 := congrArg List.head? hcon
        rw [List.head?_take] at h2
        simp at h2
        exact hcs h2
      | nil =>
        subst hnl0
        simp only [List.nil_append]
        rcases htr : p.root with _ | _ | _
        · have hseg0 : p.segments = [] := by
            rcases hroot with h' | h'
            · exact absurd htr h'
            · exact h'
          rw [URLPath.toList_eq, htr, hseg0]
          decide
        · have hseg : ∀ s ∈ p.segments, s ≠ [] ∧ s ≠ ['.'] ∧ '/' ∉ s :=
            hwf.segsOK
          rcases joinSegs_shape hseg with hs | ⟨c, t', hs, hc⟩
          · rw [URLPath.toList_eq, htr, hs]
            decide
          · rw [URLPath.toList_eq, htr, hs]
            intro hcon
            rw [show PathRoot.abs.toList ++ c :: t' = '/' :: c :: t' from rfl,
              show List.take 2 ('/' :: c :: t') = ['/', c] from rfl] at hcon
            have h2 : c = '/' := by
              injection hcon with h2a h2b
              injection h2b with h2c h2d
            exact hc h2
        · exact absurd ⟨rfl, htr⟩ (hdbl rfl)
    have hparse := urlparse_render_dslash hnl hwf hroot
    have hsch2 : (urlparse (nl ++ p.toList)).scheme = [] := by
      show (splitScheme (nl ++ p.toList)).1 = []
      rw [splitScheme_not_like (hq rfl)]
    have hne1 : ¬ invalidIPv6 (splitNetloc (splitScheme (nl ++ p.toList)).2).1 := by
      rw [splitScheme_not_like (hq rfl)]
      show ¬ invalidIPv6 (splitNetloc (nl ++ p.toList)).1
      rw [splitNetloc_not_dslash htake]
      show ¬ invalidIPv6 ([] : List Char)
      decide
    have hne2 : ¬ invalidIPv6
        (splitNetloc (splitScheme (['/', '/'] ++ (nl ++ p.toList))).2).1 := by
      show ¬ invalidIPv6
        (splitNetloc (splitScheme ('/' :: '/' :: (nl ++ p.toList))).2).1
      rw [splitScheme_slash]
      show ¬ invalidIPv6 (splitNetloc ('/' :: '/' :: (nl ++ p.toList))).1
      rw [splitNetloc_dslash hnl (toList_shape hwf hroot)]
      exact hbr
    constructor
    · rw [htl, ofListE_eq hne1, if_pos ⟨hsch2, htake⟩, urlparseE_ok hne2,
        except_map_ok,
        show ['/', '/'] ++ (nl ++ p.toList) = '/' :: '/' :: (nl ++ p.toList)
          from rfl, hparse]
      show Except.ok (URL.mk [] nl (URLPath.ofList p.toList))
        = Except.ok (URL.mk [] nl p)
      rw [URLPath.ofList_toList hwf.segsOK]
    · intro _
      rw [htl]
      exact htake
  · have htl : URL.toList ⟨sc, nl, p⟩
        = sc ++ ':' :: '/' :: '/' :: (nl ++ p.toList) := by
      unfold URL.toList
      rw [if_pos (by simpa using hsc0)]
    have hparse := urlparse_render_scheme hsc0 hsc hnl hwf hroot
    have hne3 : ¬ invalidIPv6
        (splitNetloc
          (splitScheme (sc ++ ':' :: '/' :: '/' :: (nl ++ p.toList))).2).1 := by
      rw [splitScheme_scheme _ hsc0 hsc]
      show ¬ invalidIPv6 (splitNetloc ('/' :: '/' :: (nl ++ p.toList))).1
      rw [splitNetloc_dslash hnl (toList_shape hwf hroot)]
      exact hbr
    have hcond : ¬((urlparse (sc ++ ':' :: '/' :: '/' :: (nl ++ p.toList))).scheme = []
        ∧ (sc ++ ':' :: '/' :: '/' :: (nl ++ p.toList)).take 2 ≠ ['/', '/']) := by
      rintro ⟨h1, -⟩
      rw [hparse] at h1
      exact hsc0 (by rwa [hlow] at h1)
    constructor
    · rw [htl, ofListE_eq hne3, if_neg hcond, hparse]
      show Except.ok (URL.mk (sc.map Char.toLower) nl (URLPath.ofList p.toList))
        = Except.ok (URL.mk sc nl p)
      rw [URLPath.ofList_toList hwf.segsOK, hlow]
    · intro h
      exact absurd h hsc0

/-- C1, witness: the amended round-trip at
`URL("https://www.bbc.co.uk/news")`. -/
theorem claim_C1_witness :
    URL.ofListE (URL.toList (URL.ofList ("https://www.bbc.co.uk/news".toList)))
      = .ok (URL.ofList ("https://www.bbc.co.uk/news".toList)) :=
  (claim_C1 (URL.ofList ("https://www.bbc.co.uk/news".toList))
    (by decide) (by decide) (by decide) (by decide) (by decide)
    (by decide) (by decide) (by decide) (by decide)).1

/-! ### Claim C2 -/

/-- C2: the constructor parses with the standard parser; an empty-scheme
parse of a string not starting with `//` is redone with `//` prefixed
(so `www.bbc.co.uk/news` gets netloc `www.bbc.co.uk` and path `/news`);
a string beginning with a scheme prefix (nonempty run of
letters/digits/`+-.` then `:`) or with `//` is parsed as given. -/
theorem claim_C2 :
    (URL.ofList ("www.bbc.co.uk/news".toList)
      = ⟨[], "www.bbc.co.uk".toList, ⟨.abs, ["news".toList]⟩⟩)
    ∧ (∀ s : List Char, (urlparse s).scheme = [] → s.take 2 ≠ ['/', '/'] →
        URL.ofList s = URL.ofParse (urlparse (['/', '/'] ++ s)))
    ∧ (∀ pre rest : List Char, pre ≠ [] → (∀ c ∈ pre, isSchemeChar c = true) →
        URL.ofList (pre ++ ':' :: rest) = URL.ofParse (urlparse (pre ++ ':' :: rest)))
    ∧ (∀ s : List Char, s.take 2 = ['/', '/'] →
        URL.ofList s = URL.ofParse (urlparse s)) := by
  refine ⟨by decide, fun s h1 h2 => ?_, fun pre rest h1 h2 => ?_, fun s h => ?_⟩
  · unfold URL.ofList
    rw [if_pos ⟨h1, h2⟩]
  · unfold URL.ofList
    rw [if_neg ?_]
    rintro ⟨ha, -⟩
    have hsch : (splitScheme (pre ++ ':' :: rest)).1 = [] := ha
    rw [splitScheme_scheme rest h1 h2] at hsch
    exact h1 (List.map_eq_nil_iff.mp hsch)
  · unfold URL.ofList
    rw [if_neg (by rintro ⟨-, hb⟩; exact hb h)]

/-- C2, witness: both general cases at concrete inputs. -/
theorem claim_C2_witness :
    URL.ofList ("https".toList ++ ':' :: "//x.org/a".toList)
      = URL.ofParse (urlparse ("https".toList ++ ':' :: "//x.org/a".toList))
    ∧ URL.ofList ("bbc.co.uk/news".toList)
      = URL.ofParse (urlparse (['/', '/'] ++ "bbc.co.uk/news".toList)) :=
  ⟨claim_C2.2.2.1 ("https".toList) ("//x.org/a".toList) (by decide) (by decide),
    claim_C2.2.1 ("bbc.co.uk/news".toList) (by decide) (by decide)⟩

/-! ### Claim C3 -/

/-- C3: `==` holds exactly when scheme, netloc and path all match
(query and fragment play no role -- they are not even part of the
value), and equal values hash equally because the hash is a function of
exactly that triple. -/
theorem claim_C3 (a b : URL) :
    (URL.eq a b = true
      ↔ a.scheme = b.scheme ∧ a.netloc = b.netloc ∧ a.path = b.path)
    ∧ (URL.eq a b = true → URL.hashVal a = URL.hashVal b) := by
  have hiff : URL.eq a b = true
      ↔ a.scheme = b.scheme ∧ a.netloc = b.netloc ∧ a.path = b.path := by
    unfold URL.eq
    simp only [Bool.and_eq_true, decide_eq_true_eq]
    constructor
    · rintro ⟨⟨h1, h2⟩, h3⟩
      exact ⟨h2, h1, h3⟩
    · rintro ⟨h1, h2, h3⟩
      exact ⟨⟨h2, h1⟩, h3⟩
  refine ⟨hiff, fun h => ?_⟩
  obtain ⟨h1, h2, h3⟩ := hiff.mp h
  unfold URL.hashVal
  rw [h1, h2, h3]

/-- C3, witness: two loosely-equal URLs built from different strings
hash equally. -/
theorem claim_C3_witness :
    URL.hashVal (URL.ofList ("http://example.com/x?a=1".toList))
      = URL.hashVal (URL.ofList ("http://example.com/x#frag".toList)) :=
  (claim_C3 (URL.ofList ("http://example.com/x?a=1".toList))
    (URL.ofList ("http://example.com/x#frag".toList))).2 (by decide)

/-! ### Claim C4 -/

theorem parent_segsOK {p : URLPath} (h : p.SegsOK) : p.parent.SegsOK := by
  unfold URLPath.parent
  by_cases hs : p.segments = []
  · rw [if_pos hs]
    exact h
  · rw [if_neg hs]
    intro s hsm
    exact h s (List.dropLast_subset _ hsm)

theorem name_mem {p : URLPath} (h : p.segments ≠ []) : p.name ∈ p.segments := by
  unfold URLPath.name
  rw [List.getLast?_eq_getLast _ h]
  simp only [Option.getD_some]
  exact List.getLast_mem h

theorem suffix_length_lt {p : URLPath} (h : p.name ≠ []) :
    p.suffix.length < p.name.length := by
  unfold URLPath.suffix
  by_cases hc : '.' ∈ p.name ∧ 0 < (p.name.reverse.takeWhile (· ≠ '.')).length
      ∧ (p.name.reverse.takeWhile (· ≠ '.')).length + 1 < p.name.length
  · rw [if_pos hc]
    simp only [List.length_cons, List.length_reverse]
    exact hc.2.2
  · rw [if_neg hc]
    simp only [List.length_nil]
    exact List.length_pos.mpr h

/-- Shape of the result segments under `with_name`: the first segment
stays (or becomes the validated name), hence stays clean. -/
theorem with_name_shape {p : URLPath} {n : List Char} {pn : URLPath}
    (hp : p.SegsOK) (h : p.with_name n = some pn) :
    pn.root = p.root
      ∧ (pn.segments = [] ∨ ∃ a t, pn.segments = a :: t ∧ a ≠ []
          ∧ a.head? ≠ some '/') := by
  unfold URLPath.with_name at h
  by_cases h1 : p.name = []
  · rw [if_pos h1] at h
    exact absurd h (by simp)
  rw [if_neg h1] at h
  by_cases h2 : n = [] ∨ n.getLast? = some '/' ∨ n.take 1 = ['/']
      ∨ (normSegs n).length ≠ 1
  · rw [if_pos h2] at h
    exact absurd h (by simp)
  rw [if_neg h2] at h
  injection h with h3
  subst h3
  push_neg at h2
  obtain ⟨hn1, -, hn3, -⟩ := h2
  refine ⟨rfl, ?_⟩
  have hsegne : p.segments ≠ [] := by
    intro hx
    apply h1
    unfold URLPath.name
    rw [hx]
    rfl
  cases hseg : p.segments with
  | nil => exact absurd hseg hsegne
  | cons a t =>
    cases t with
    | nil =>
      refine Or.inr ⟨n, [], rfl, hn1, ?_⟩
      cases n with
      | nil => exact absurd rfl hn1
      | cons c n' =>
        simp only [List.head?_cons, ne_eq, Option.some.injEq]
        intro hcc
        apply hn3
        rw [hcc]
        rfl
    | cons b t' =>
      obtain ⟨ha1, -, ha3⟩ := hp a (hseg ▸ List.mem_cons_self a _)
      refine Or.inr ⟨a, (b :: t').dropLast ++ [n], by
        show (a :: b :: t').dropLast ++ [n] = _
        rw [List.dropLast_cons₂]
        rfl, ha1, ?_⟩
      cases a with
      | nil => exact absurd rfl ha1
      | cons c a' =>
        simp only [List.head?_cons, ne_eq, Option.some.injEq]
        intro hcc
        exact ha3 (hcc ▸ List.mem_cons_self c a')

/-- Shape of the result segments under `with_suffix`: the new final
segment keeps the old name's first character. -/
theorem with_suffix_shape {p : URLPath} {sfx : List Char} {pn : URLPath}
    (hp : p.SegsOK) (h : p.with_suffix sfx = some pn) :
    pn.root = p.root
      ∧ (pn.segments = [] ∨ ∃ a t, pn.segments = a :: t ∧ a ≠ []
          ∧ a.head? ≠ some '/') := by
  unfold URLPath.with_suffix at h
  by_cases h1 : '/' ∈ sfx
  · rw [if_pos h1] at h
    exact absurd h (by simp)
  rw [if_neg h1] at h
  by_cases h2 : sfx ≠ [] ∧ sfx.take 1 ≠ ['.']
  · rw [if_pos h2] at h
    exact absurd h (by simp)
  rw [if_neg h2] at h
  by_cases h3 : sfx = ['.']
  · rw [if_pos h3] at h
    exact absurd h (by simp)
  rw [if_neg h3] at h
  by_cases h4 : p.name = []
  · rw [if_pos h4] at h
    exact absurd h (by simp)
  rw [if_neg h4] at h
  injection h with h5
  subst h5
  refine ⟨rfl, ?_⟩
  have hsegne : p.segments ≠ [] := by
    intro hx
    apply h4
    unfold URLPath.name
    rw [hx]
    rfl
  obtain ⟨-, -, hslash⟩ := hp p.name (name_mem hsegne)
  have hk : 1 ≤ p.name.length - p.suffix.length := by
    have := suffix_length_lt h4
    omega
  obtain ⟨m, hm⟩ : ∃ m, p.name.length - p.suffix.length = m + 1 :=
    ⟨p.name.length - p.suffix.length - 1, by omega⟩
  cases hname : p.name with
  | nil => exact absurd hname h4
  | cons c n' =>
    have hc : c ≠ '/' := by
      intro hcc
      rw [hname] at hslash
      exact hslash (hcc ▸ List.mem_cons_self c n')
    rw [hname] at hm
    have hns : (c :: n').take ((c :: n').length - p.suffix.length) ++ sfx
        = c :: (n'.take m ++ sfx) := by
      rw [hm, List.take_succ_cons]
      rfl
    cases hseg : p.segments with
    | nil => exact absurd hseg hsegne
    | cons a t =>
      cases t with
      | nil =>
        refine Or.inr ⟨c :: (n'.take m ++ sfx), [], by
          show [] ++ [(c :: n').take ((c :: n').length - p.suffix.length) ++ sfx] = _
          rw [hns]
          rfl, by simp, ?_⟩
        simp only [List.head?_cons, ne_eq, Option.some.injEq]
        exact hc
      | cons b t' =>
        obtain ⟨ha1, -, ha3⟩ := hp a (hseg ▸ List.mem_cons_self a _)
        refine Or.inr ⟨a, (b :: t').dropLast
          ++ [(c :: n').take ((c :: n').length - p.suffix.length) ++ sfx], by
            show (a :: b :: t').dropLast ++ _ = _
            rw [List.dropLast_cons₂]
            rfl, ha1, ?_⟩
        cases a with
        | nil => exact absurd rfl ha1
        | cons d a' =>
          simp only [List.head?_cons, ne_eq, Option.some.injEq]
          intro hdd
          exact ha3 (hdd ▸ List.mem_cons_self d a')

/-- C4: `from_parts` always yields a `/`-rooted path -- unconditionally
for string path arguments, and for `URLPath` arguments satisfying the
constructor invariant -- and consequently so do division, `parent`,
`with_name` and `with_suffix`, which all build their result through
`from_parts`. -/
theorem claim_C4 :
    (∀ sc nl x : List Char,
        (URL.from_parts sc nl (URLPath.ofList x)).path.root = .abs)
    ∧ (∀ (sc nl : List Char) (p : URLPath), p.SegsOK →
        (URL.from_parts sc nl p).path.root = .abs)
    ∧ (∀ (u : URL) (s : List Char) (c : URL), u.path.SegsOK →
        URL.truediv u (.str s) = .ok c → c.path.root = .abs)
    ∧ (∀ u : URL, u.path.SegsOK → u.parent.path.root = .abs)
    ∧ (∀ (u : URL) (n : List Char) (c : URL), u.path.SegsOK →
        URL.with_name u n = some c → c.path.root = .abs)
    ∧ (∀ (u : URL) (sfx : List Char) (c : URL), u.path.SegsOK →
        URL.with_suffix u sfx = some c → c.path.root = .abs) := by
  refine ⟨fun sc nl x => from_parts_root sc nl (URLPath.ofList_segsOK x),
    fun sc nl p hp => from_parts_root sc nl hp,
    fun u s c hu h => ?_, fun u hu => from_parts_root _ _ (parent_segsOK hu),
    fun u n c hu h => ?_, fun u sfx c hu h => ?_⟩
  · unfold URL.truediv at h
    simp only [DivKey.asPath] at h
    injection h with h'
    subst h'
    exact from_parts_root _ _ (join_segsOK hu (URLPath.ofList_segsOK s))
  · unfold URL.with_name at h
    cases hwn : u.path.with_name n with
    | none =>
      rw [hwn] at h
      exact absurd h (by simp)
    | some pn =>
      rw [hwn] at h
      injection h with h'
      subst h'
      exact from_parts_root' _ _ (with_name_shape hu hwn).2
  · unfold URL.with_suffix at h
    cases hws : u.path.with_suffix sfx with
    | none =>
      rw [hws] at h
      exact absurd h (by simp)
    | some pn =>
      rw [hws] at h
      injection h with h'
      subst h'
      exact from_parts_root' _ _ (with_suffix_shape hu hws).2

/-- C4, witness: the invariant at concrete inputs of every kind. -/
theorem claim_C4_witness :
    (URL.from_parts ("http".toList) ("bbc.co.uk".toList)
        (URLPath.ofList ("news".toList))).path.root = .abs
    ∧ (URL.ofList ("https://bbc.co.uk/a/b".toList)).parent.path.root = .abs :=
  ⟨claim_C4.1 ("http".toList) ("bbc.co.uk".toList) ("news".toList),
    claim_C4.2.2.2.1 (URL.ofList ("https://bbc.co.uk/a/b".toList)) (by decide)⟩

/-! ### Claim C5 -/

/-- C5: what the code actually does at the claim's inputs.  Division by
an integer does NOT succeed: `URL.__truediv__` only forwards to
`URLPath.__truediv__` (whose `pathlib` argument parsing rejects `int`,
`# TODO: division by int` in the source), catches the `TypeError` and
returns `NotImplemented`, so Python raises the `unsupported operand
type(s)` `TypeError` -- contradicting the repository's own test
`test_division_number`, which requires `(URL() / n).parts[-1] == str(n)`.
Unsupported operand types (float, list, set) do raise a `TypeError`
naming the operand type, as the claim says. -/
theorem claim_C5 :
    URL.truediv (URL.ofList []) (.intKey 5)
      = .typeError ("URL".toList) ("int".toList)
    ∧ (∀ (u : URL) (n : Int), URL.truediv u (.intKey n)
        = .typeError ("URL".toList) ("int".toList))
    ∧ (∀ u : URL, URL.truediv u .floatKey
        = .typeError ("URL".toList) ("float".toList))
    ∧ (∀ u : URL, URL.truediv u .listKey
        = .typeError ("URL".toList) ("list".toList))
    ∧ (∀ u : URL, URL.truediv u .setKey
        = .typeError ("URL".toList) ("set".toList)) :=
  ⟨rfl, fun _ _ => rfl, fun _ => rfl, fun _ => rfl, fun _ => rfl⟩

/-! ### Claim C6 -/

/-- C6 (modelled from the spec, the `query` attribute being absent from
the `URL.__init__` under `src/`): a URL with a query component exposes
the name → ordered-list-of-values mapping, and a child produced by
division has an empty query mapping. -/
theorem claim_C6 :
    (URLQ.ofList ("https://api.example.com/x?page=2&per_page=50".toList)).query
      = [("page".toList, [['2']]), ("per_page".toList, [['5', '0']])]
    ∧ (∀ (u : URLQ) (k : DivKey) (c : URLQ),
        URLQ.truediv u k = .ok c → c.query = []) := by
  refine ⟨by decide, fun u k c h => ?_⟩
  unfold URLQ.truediv at h
  cases hk : k.asPath with
  | none =>
    rw [hk] at h
    exact absurd h (by simp)
  | some q =>
    rw [hk] at h
    injection h with h'
    subst h'
    rfl

/-- C6, witness: the child of `https://api.github.com?foo=bar` by `/ "y"`
has an empty query mapping. -/
theorem claim_C6_witness :
    (URLQ.mk ("https".toList) ("api.github.com".toList)
      ⟨.abs, ["y".toList]⟩ []).query = [] :=
  claim_C6.2 (URLQ.ofList ("https://api.github.com?foo=bar".toList))
    (.str ("y".toList)) _ (by decide)

/-! ### Claim C7 -/

theorem forceAbsolute_segments (p : URLPath) :
    p.forceAbsolute.segments = p.segments := by
  unfold URLPath.forceAbsolute
  by_cases h : p.root = .rel
  · rw [if_pos h]
  · rw [if_neg h]

/-- C7 (modelled from the spec, `URL.relative_to` being absent from the
code under `src/`): `(u / "x").relative_to(u)` is the relative path
`x`; netlocs are compared case-insensitively, paths forced absolute,
and the failure cases raise a `ValueError` whose message contains
"does not start with" (or, for a relative path operand, fail
immediately). -/
theorem claim_C7 :
    (∀ u : URL, u.path.WF →
      ∃ c, URL.truediv u (.str ['x']) = .ok c
        ∧ URL.relative_to c (.url u) = .ok (URLPath.ofList ['x']))
    ∧ (∀ u v : URL, lowerList v.netloc ≠ lowerList u.netloc →
        ∃ m, URL.relative_to u (.url v) = .error (.valueError m)
          ∧ ("does not start with".toList) <:+: m)
    ∧ (∀ u v : URL, lowerList v.netloc = lowerList u.netloc →
        u.path.forceAbsolute.segments.take v.path.forceAbsolute.segments.length
          ≠ v.path.forceAbsolute.segments →
        ∃ m, URL.relative_to u (.url v) = .error (.valueError m)
          ∧ ("does not start with".toList) <:+: m)
    ∧ (∀ (u : URL) (s : List Char),
        URL.relative_to u (.str s) = relToURL u (URL.ofList s))
    ∧ (∀ (u : URL) (p : URLPath), p.root = .rel →
        ∃ m, URL.relative_to u (.path p) = .error (.valueError m)) := by
  have hmid : " does not start with ".toList
      = [' '] ++ "does not start with".toList ++ [' '] := by decide
  have hinf : ∀ a b : List Char,
      ("does not start with".toList)
        <:+: (a ++ " does not start with ".toList ++ b) := by
    intro a b
    refine ⟨a ++ [' '], [' '] ++ b, ?_⟩
    rw [hmid]
    simp [List.append_assoc]
  refine ⟨fun u hwf => ?_, fun u v hne => ?_, fun u v heq hpre => ?_,
    fun u s => rfl, fun u p hrel => ?_⟩
  · have hx : URLPath.ofList ['x'] = ⟨.rel, [['x']]⟩ := by decide
    have hjoin : u.path.join (URLPath.ofList ['x'])
        = ⟨u.path.root, u.path.segments ++ [['x']]⟩ := by
      rw [hx]
      unfold URLPath.join
      rw [if_pos rfl]
    have hsegok : (URLPath.mk u.path.root (u.path.segments ++ [['x']])).SegsOK := by
      intro s hs
      rcases List.mem_append.mp hs with h1 | h1
      · exact hwf.segsOK s h1
      · rw [List.mem_singleton.mp h1]
        exact ⟨by decide, by decide, by decide⟩
    have hchild : URL.truediv u (.str ['x'])
        = .ok ⟨u.scheme, u.netloc, ⟨.abs, u.path.segments ++ [['x']]⟩⟩ := by
      unfold URL.truediv
      simp only [DivKey.asPath]
      rw [hjoin, from_parts_eval _ _ hsegok]
    refine ⟨_, hchild, ?_⟩
    show relToURL ⟨u.scheme, u.netloc, ⟨.abs, u.path.segments ++ [['x']]⟩⟩ u
      = Except.ok (URLPath.ofList ['x'])
    unfold relToURL
    rw [if_neg (fun hne => hne rfl)]
    unfold relPathCore
    rw [if_pos ?hcond]
    case hcond =>
      rw [forceAbsolute_segments, forceAbsolute_segments]
      exact List.take_left _ _
    rw [forceAbsolute_segments, forceAbsolute_segments]
    show Except.ok (URLPath.mk .rel
        ((u.path.segments ++ [['x']]).drop u.path.segments.length))
      = Except.ok (URLPath.ofList ['x'])
    rw [List.drop_left, hx]
  · show ∃ m, relToURL u v = .error (.valueError m)
      ∧ ("does not start with".toList) <:+: m
    unfold relToURL
    rw [if_pos hne]
    exact ⟨_, rfl, hinf _ _⟩
  · show ∃ m, relToURL u v = .error (.valueError m)
      ∧ ("does not start with".toList) <:+: m
    unfold relToURL
    rw [if_neg (fun hne => hne heq)]
    unfold relPathCore
    rw [if_neg hpre]
    exact ⟨_, rfl, hinf _ _⟩
  · show ∃ m, (if p.root = .rel then Except.error (PyExc.valueError
      ("relative_to cannot be used with relative URLPath objects".toList))
      else relPathCore u.path p u.toList p.toList) = .error (.valueError m)
    rw [if_pos hrel]
    exact ⟨_, rfl⟩

/-- C7, witness: the main property at `u = URL("https://github.com")`. -/
theorem claim_C7_witness :
    ∃ c, URL.truediv (URL.ofList ("https://github.com".toList)) (.str ['x'])
        = .ok c
      ∧ URL.relative_to c (.url (URL.ofList ("https://github.com".toList)))
          = .ok (URLPath.ofList ['x']) :=
  claim_C7.1 (URL.ofList ("https://github.com".toList)) (by decide)

/-! ### Claim C8 -/

/-- C8: `match`, `as_uri`, the four rich comparisons, `anchor` and
`drive` on `URLPath` all raise `NotImplementedError`, which is a
different exception from any input-dependent `ValueError`/`TypeError`. -/
theorem claim_C8 :
    (∀ (p : URLPath) (args : List (List Char)),
        URLPath.match' p args = .notImplementedError)
    ∧ (∀ (p : URLPath) (args : List (List Char)),
        URLPath.asUri p args = .notImplementedError)
    ∧ (∀ p q : URLPath, URLPath.lt p q = .notImplementedError)
    ∧ (∀ p q : URLPath, URLPath.le p q = .notImplementedError)
    ∧ (∀ p q : URLPath, URLPath.gt p q = .notImplementedError)
    ∧ (∀ p q : URLPath, URLPath.ge p q = .notImplementedError)
    ∧ (∀ p : URLPath, URLPath.anchor p = .notImplementedError)
    ∧ (∀ p : URLPath, URLPath.drive p = .notImplementedError)
    ∧ (∀ m : List Char, PyExc.notImplementedError ≠ .valueError m)
    ∧ (∀ m : List Char, PyExc.notImplementedError ≠ .typeError m) :=
  ⟨fun _ _ => rfl, fun _ _ => rfl, fun _ _ => rfl, fun _ _ => rfl,
    fun _ _ => rfl, fun _ _ => rfl, fun _ => rfl, fun _ => rfl,
    fun _ h => PyExc.noConfusion h, fun _ h => PyExc.noConfusion h⟩

/-! ### Claim C9 -/

/-- C9: what the code actually does.  A child produced by `/` holds the
identical session (the reassignment in `RequestsURL.__truediv__`), but
`.parent` goes through `from_parts`, whose `cls('')` runs
`RequestsURL.__init__` and allocates a brand-new session that is never
replaced: the parent of `RequestsURL("https://github.com/domdfcoding")`
does NOT hold its child's session, contradicting the class docstring
("The Session used for this object -- and all objects created using the
`/` or `.parent` operations"). -/
theorem claim_C9 :
    (RequestsURL.parent ⟨1⟩
        (RequestsURL.init ⟨0⟩ ("https://github.com/domdfcoding".toList)).1).1.session
      ≠ (RequestsURL.init ⟨0⟩ ("https://github.com/domdfcoding".toList)).1.session
    ∧ (∀ (w : World) (r : RequestsURL),
        (RequestsURL.parent w r).1.session = w.nextSession)
    ∧ (∀ (w : World) (r : RequestsURL) (s : List Char),
        ∃ c w', RequestsURL.truediv w r (.str s) = (.ok c, w')
          ∧ c.session = r.session) :=
  ⟨by decide, fun _ _ => rfl, fun w r s => ⟨_, _, rfl, rfl⟩⟩

/-! ### Claim C10 -/

/-- C10: `TrailingRequestsURL.__str__` is the base rendering plus one
unconditional `/`; it always ends in `/`, and for a URL whose path is
the bare root (`https://bbc.co.uk/`) the result ends in a double slash
`https://bbc.co.uk//`. -/
theorem claim_C10 :
    (∀ r : RequestsURL, TrailingRequestsURL.toList r = URL.toList r.url ++ ['/'])
    ∧ (∀ r : RequestsURL, (TrailingRequestsURL.toList r).getLast? = some '/')
    ∧ TrailingRequestsURL.toList
        (RequestsURL.init ⟨0⟩ ("https://bbc.co.uk/".toList)).1
      = "https://bbc.co.uk//".toList := by
  refine ⟨fun r => rfl, fun r => ?_, by decide⟩
  unfold TrailingRequestsURL.toList
  exact List.getLast?_concat _

end Apeye
